import Mathlib

/-!
# Verification of the `rust_py_lib` computational utility library

The repository ships a Python driver script
(`src/module-11-python-interop/solutions/ex01-pyo3/python/example.py`) that
calls into a native extension module `rust_py_lib` exposing a `Calculator`
(accumulator), `fibonacci`, `process_numbers`, `reverse_string`,
`word_frequency` and a `DataProcessor` (statistics engine).  The extension's
source is not part of the repository snapshot, so every component below is
modelled from the specification and the claims are settled against that
model.
-/

namespace RustPyLib

/-- Modelled from the spec: the single error kind of the library's error
taxonomy (`InvalidArgument`), raised synchronously at a call that violates a
precondition.  The extension module's implementation is missing from the
snapshot. -/
inductive PyError where
  | invalidArgument
deriving DecidableEq

noncomputable section

/-- Modelled from the spec: the Accumulator (`Calculator` in the driver
script) holds a single attribute `memory : float64` initialized to 0.  The
extension module's implementation is missing from the snapshot.  Floats are
modelled as real numbers. -/
structure Calculator where
  memory : ℝ

/-- Modelled from the spec: a fresh accumulator, `memory` initialized to 0. -/
def Calculator.new : Calculator := ⟨0⟩

/-- Modelled from the spec: `add(a, b)` returns `a + b` and sets
`memory = a + b`.  State passing is explicit: the call returns the result
together with the accumulator after the call. -/
def Calculator.add (_c : Calculator) (a b : ℝ) : ℝ × Calculator :=
  (a + b, ⟨a + b⟩)

/-- Modelled from the spec: `multiply(a, b)` returns `a * b` and sets
`memory = a * b`. -/
def Calculator.multiply (_c : Calculator) (a b : ℝ) : ℝ × Calculator :=
  (a * b, ⟨a * b⟩)

/-- Modelled from the spec: `get_memory()` returns the last stored result. -/
def Calculator.get_memory (c : Calculator) : ℝ := c.memory

/-- Modelled from the spec: the iterative running-pair Fibonacci generator;
`fibAux n a b` emits `n` further terms starting from the pair `(a, b)`. -/
def fibAux : Nat → Int → Int → List Int
  | 0, _, _ => []
  | n + 1, a, b => a :: fibAux n b (a + b)

/-- Modelled from the spec: `fibonacci(n)` returns the ordered sequence of
the first `n` Fibonacci terms, starting from the pair `(0, 1)`. -/
def fibonacci (n : Nat) : List Int := fibAux n 0 1

/-- Modelled from the spec: the Python-facing `fibonacci` accepts any
integer; a negative count is a precondition violation that fails with
`InvalidArgument`. -/
def fibonacciE (n : Int) : Except PyError (List Int) :=
  if n < 0 then .error .invalidArgument else .ok (fibonacci n.toNat)

/-- Modelled from the spec: the fused single-pass reduction of
`process_numbers`, accumulating the running `(sum, min, max)` triple. -/
def pnAux : List ℝ → ℝ × ℝ × ℝ → ℝ × ℝ × ℝ
  | [], acc => acc
  | x :: rest, (s, mn, mx) => pnAux rest (s + x, min mn x, max mx x)

/-- Modelled from the spec: `process_numbers(values)` returns the triple
`(sum, min, max)` of a non-empty sequence; the empty sequence fails with
`InvalidArgument` (min/max undefined). -/
def process_numbers : List ℝ → Except PyError (ℝ × ℝ × ℝ)
  | [] => .error .invalidArgument
  | x :: rest => .ok (pnAux rest (x, x, x))

/-- Modelled from the spec: `reverse_string(text)` returns the sequence of
code points in reverse order. -/
def reverse_string (text : String) : String := ⟨text.data.reverse⟩

/-- Modelled from the spec: the statistics engine (`DataProcessor` in the
driver script) wraps an ordered, immutable dataset of float64 values,
modelled as real numbers. -/
structure DataProcessor where
  data : List ℝ

/-- Modelled from the spec: construction of the statistics engine from a
sequence; the empty sequence is invalid and fails with `InvalidArgument`. -/
def DataProcessor.new : List ℝ → Except PyError DataProcessor
  | [] => .error .invalidArgument
  | x :: rest => .ok ⟨x :: rest⟩

/-- Modelled from the spec: `mean()` is the arithmetic mean
`sum(dataset) / count(dataset)`. -/
def DataProcessor.mean (p : DataProcessor) : ℝ := p.data.sum / p.data.length

/-- Modelled from the spec: `median()` sorts a copy of the dataset
ascending; if the count is odd it returns the middle element, if even the
average of the two middle elements. -/
def DataProcessor.median (p : DataProcessor) : ℝ :=
  let s := List.insertionSort (· ≤ ·) p.data
  let n := p.data.length
  if n % 2 = 1 then s.getD (n / 2) 0
  else (s.getD (n / 2 - 1) 0 + s.getD (n / 2) 0) / 2

/-- Modelled from the spec: `std_dev()` is the population standard
deviation `sqrt(sum((x - mean)^2) / count)`, dividing by the full count
(no Bessel correction). -/
def DataProcessor.std_dev (p : DataProcessor) : ℝ :=
  Real.sqrt ((p.data.map (fun x => (x - p.mean) ^ 2)).sum / p.data.length)

/-- Modelled from the spec: `filter_outliers(k)` keeps the dataset values
within `k` standard deviations of the mean (`|x - mean| ≤ k * std_dev`),
preserving original relative order; a negative `k` fails with
`InvalidArgument`. -/
def DataProcessor.filter_outliers (p : DataProcessor) (k : ℝ) :
    Except PyError (List ℝ) :=
  if k < 0 then .error .invalidArgument
  else .ok (p.data.filter (fun x => decide (|x - p.mean| ≤ k * p.std_dev)))

/-- Modelled from the spec: the whitespace tokenizer of `word_frequency`.
`wordsAux cs cur` scans the characters `cs` while `cur` holds the current
(reversed) run of non-whitespace characters; a whitespace character closes
the current token, and runs of whitespace act as a single delimiter. -/
def wordsAux : List Char → List Char → List (List Char)
  | [], [] => []
  | [], c :: cur => [(c :: cur).reverse]
  | c :: rest, cur =>
    if c.isWhitespace then
      match cur with
      | [] => wordsAux rest []
      | d :: cur' => (d :: cur').reverse :: wordsAux rest []
    else wordsAux rest (c :: cur)

/-- Modelled from the spec: the whitespace-delimited tokens of a text, in
order of appearance, with no punctuation stripping and no case folding. -/
def tokens (text : String) : List String :=
  (wordsAux text.data []).map String.mk

/-- Modelled from the spec: record one occurrence of the token `w` in the
frequency map; the count starts at 1 on first sighting and is incremented
by 1 per further occurrence. -/
def bump : List (String × Nat) → String → List (String × Nat)
  | [], w => [(w, 1)]
  | (x, c) :: rest, w =>
    if x = w then (x, c + 1) :: rest else (x, c) :: bump rest w

/-- Modelled from the spec: `word_frequency(text)` tokenizes the text and
maps each distinct token to its number of occurrences.  The unordered map
is represented as an association list with unique keys. -/
def word_frequency (text : String) : List (String × Nat) :=
  (tokens text).foldl bump []

/-- Specification helper: the count stored for the key `w` in a frequency
map (0 when the key is absent). -/
def lcount : List (String × Nat) → String → Nat
  | [], _ => 0
  | (x, c) :: rest, w => if x = w then c else lcount rest w

/-- Specification helper: the keys of a frequency map. -/
def keys (m : List (String × Nat)) : List String := m.map Prod.fst

/-- Modelled from the spec: the read-only operations of the statistics
engine, used to state that any number of calls in any order leaves the
dataset unchanged. -/
inductive StatOp where
  | meanOp
  | medianOp
  | stdDevOp
  | filterOutliersOp (k : ℝ)

/-- The result of one statistics-engine operation. -/
inductive StatResult where
  | num (x : ℝ)
  | seq (r : Except PyError (List ℝ))

/-- Modelled from the spec: run one statistics-engine operation, returning
its result together with the engine state after the call; the four
operations are read-only over the stored dataset. -/
def runOp (p : DataProcessor) : StatOp → StatResult × DataProcessor
  | .meanOp => (.num p.mean, p)
  | .medianOp => (.num p.median, p)
  | .stdDevOp => (.num p.std_dev, p)
  | .filterOutliersOp k => (.seq (p.filter_outliers k), p)

/-- Run a sequence of statistics-engine operations, threading the engine
state, and collect the results in call order. -/
def runOps (p : DataProcessor) : List StatOp → List StatResult × DataProcessor
  | [] => ([], p)
  | o :: rest =>
    let r := runOp p o
    let rs := runOps r.2 rest
    (r.1 :: rs.1, rs.2)

end

/-- C1: for every non-negative integer `n`, `fibonacci n` is an ordered
sequence of exactly `n` integers whose first term is 0, second term is 1,
and every term at position `k + 2` is the sum of the two preceding terms;
`fibonacci 0` is empty and `fibonacci 1 = [0]`. -/
theorem fibonacci_correct (n : Nat) (hn : 2 ≤ n) :
    (∀ m, (fibonacci m).length = m) ∧
    fibonacci 0 = [] ∧ fibonacci 1 = [0] ∧
    (fibonacci n)[0]? = some 0 ∧ (fibonacci n)[1]? = some 1 ∧
    (∀ k, k + 2 < n → ∃ x y,
      (fibonacci n)[k]? = some x ∧ (fibonacci n)[k + 1]? = some y ∧
      (fibonacci n)[k + 2]? = some (x + y)) := by
  have length_aux : ∀ (m : Nat) (a b : Int), (fibAux m a b).length = m := by
    intro m
    induction m with
    | zero => intro a b; rfl
    | succ m ih => intro a b; simp [fibAux, ih]
  have recur_aux : ∀ (k m : Nat) (a b : Int), k + 2 < m → ∃ x y,
      (fibAux m a b)[k]? = some x ∧ (fibAux m a b)[k + 1]? = some y ∧
      (fibAux m a b)[k + 2]? = some (x + y) := by
    intro k
    induction k with
    | zero =>
      intro m a b hm
      obtain ⟨j, rfl⟩ : ∃ j, m = j + 3 := ⟨m - 3, by omega⟩
      exact ⟨a, b, by simp [fibAux]⟩
    | succ k ih =>
      intro m a b hm
      obtain ⟨j, rfl⟩ : ∃ j, m = j + 1 := ⟨m - 1, by omega⟩
      obtain ⟨x, y, h1, h2, h3⟩ := ih j b (a + b) (by omega)
      exact ⟨x, y, by simpa [fibAux] using h1, by simpa [fibAux] using h2,
        by simpa [fibAux] using h3⟩
  refine ⟨fun m => length_aux m 0 1, rfl, rfl, ?_, ?_, fun k hk => recur_aux k n 0 1 hk⟩
  · obtain ⟨j, rfl⟩ : ∃ j, n = j + 2 := ⟨n - 2, by omega⟩
    simp [fibonacci, fibAux]
  · obtain ⟨j, rfl⟩ : ∃ j, n = j + 2 := ⟨n - 2, by omega⟩
    simp [fibonacci, fibAux]

/-- Witness for C1 at the concrete count `n = 5`. -/
theorem fibonacci_correct_witness :
    2 ≤ 5 ∧
    ((∀ m, (fibonacci m).length = m) ∧
     fibonacci 0 = [] ∧ fibonacci 1 = [0] ∧
     (fibonacci 5)[0]? = some 0 ∧ (fibonacci 5)[1]? = some 1 ∧
     (∀ k, k + 2 < 5 → ∃ x y,
       (fibonacci 5)[k]? = some x ∧ (fibonacci 5)[k + 1]? = some y ∧
       (fibonacci 5)[k + 2]? = some (x + y))) :=
  ⟨by decide, fibonacci_correct 5 (by decide)⟩

/-- Invariant of the fused single-pass reduction: starting from the
accumulator `(s, mn, mx)`, the first component ends at `s` plus the sum of
the remaining elements, the second never exceeds `mn` or any remaining
element, and the third is at least `mx` and every remaining element. -/
theorem pnAux_bounds (l : List ℝ) : ∀ (s mn mx : ℝ),
    (pnAux l (s, mn, mx)).1 = s + l.sum ∧
    (pnAux l (s, mn, mx)).2.1 ≤ mn ∧
    (∀ x ∈ l, (pnAux l (s, mn, mx)).2.1 ≤ x) ∧
    mx ≤ (pnAux l (s, mn, mx)).2.2 ∧
    (∀ x ∈ l, x ≤ (pnAux l (s, mn, mx)).2.2) := by
  induction l with
  | nil => intro s mn mx; simp [pnAux]
  | cons x rest ih =>
    intro s mn mx
    obtain ⟨h1, h2, h3, h4, h5⟩ := ih (s + x) (min mn x) (max mx x)
    refine ⟨by rw [show pnAux (x :: rest) (s, mn, mx) =
        pnAux rest (s + x, min mn x, max mx x) from rfl, h1]; simp; ring,
      le_trans h2 (min_le_left _ _), ?_,
      le_trans (le_max_left _ _) h4, ?_⟩
    · intro y hy
      rcases List.mem_cons.mp hy with rfl | hy
      · exact le_trans h2 (min_le_right _ _)
      · exact h3 y hy
    · intro y hy
      rcases List.mem_cons.mp hy with rfl | hy
      · exact le_trans (le_max_right _ _) h4
      · exact h5 y hy

/-- C2: for every non-empty sequence `v`, `process_numbers v` returns the
triple `(sum, min, max)` where `sum` is the sum of the elements of `v`,
`min` is at most every element of `v`, and `max` is at least every element
of `v`. -/
theorem process_numbers_correct (v : List ℝ) (h : v ≠ []) :
    ∃ s mn mx, process_numbers v = .ok (s, mn, mx) ∧ s = v.sum ∧
      (∀ x ∈ v, mn ≤ x) ∧ (∀ x ∈ v, x ≤ mx) := by
  match v with
  | [] => exact absurd rfl h
  | x :: rest =>
    obtain ⟨h1, h2, h3, h4, h5⟩ := pnAux_bounds rest x x x
    refine ⟨(pnAux rest (x, x, x)).1, (pnAux rest (x, x, x)).2.1,
      (pnAux rest (x, x, x)).2.2, rfl, by rw [h1]; simp, ?_, ?_⟩
    · intro y hy
      rcases List.mem_cons.mp hy with rfl | hy
      · exact h2
      · exact h3 y hy
    · intro y hy
      rcases List.mem_cons.mp hy with rfl | hy
      · exact h4
      · exact h5 y hy

/-- Witness for C2 at the concrete sequence `[1.5, 2.7, 0.3]`. -/
theorem process_numbers_correct_witness :
    ([1.5, 2.7, 0.3] : List ℝ) ≠ [] ∧
    (∃ s mn mx, process_numbers [1.5, 2.7, 0.3] = .ok (s, mn, mx) ∧
      s = ([1.5, 2.7, 0.3] : List ℝ).sum ∧
      (∀ x ∈ ([1.5, 2.7, 0.3] : List ℝ), mn ≤ x) ∧
      (∀ x ∈ ([1.5, 2.7, 0.3] : List ℝ), x ≤ mx)) :=
  ⟨by simp, process_numbers_correct [1.5, 2.7, 0.3] (by simp)⟩

/-- C6: every precondition violation, and only a precondition violation,
fails with `InvalidArgument`: `process_numbers` on the empty sequence,
statistics-engine construction from the empty sequence, `fibonacci` with a
negative count, and `filter_outliers` with a negative `k` all fail, while
the corresponding calls on valid inputs succeed and `fibonacci 0` returns
the empty sequence without failing. -/
theorem invalid_argument_correct (n m : Int) (hn : n < 0) (hm : 0 ≤ m)
    (v : List ℝ) (hv : v ≠ []) (p : DataProcessor) (k j : ℝ)
    (hk : k < 0) (hj : 0 ≤ j) :
    process_numbers [] = .error .invalidArgument ∧
    (∃ r, process_numbers v = .ok r) ∧
    DataProcessor.new [] = .error .invalidArgument ∧
    (∃ q, DataProcessor.new v = .ok q) ∧
    fibonacciE n = .error .invalidArgument ∧
    (∃ l, fibonacciE m = .ok l) ∧
    fibonacciE 0 = .ok [] ∧
    p.filter_outliers k = .error .invalidArgument ∧
    (∃ l, p.filter_outliers j = .ok l) := by
  match v with
  | x :: rest =>
    refine ⟨rfl, ⟨pnAux rest (x, x, x), rfl⟩, rfl, ⟨⟨x :: rest⟩, rfl⟩,
      ?_, ?_, ?_, ?_, ?_⟩
    · simp [fibonacciE, hn]
    · exact ⟨fibonacci m.toNat, by simp [fibonacciE, not_lt.mpr hm]⟩
    · simp [fibonacciE, fibonacci, fibAux]
    · simp [DataProcessor.filter_outliers, hk]
    · exact ⟨p.data.filter (fun x => decide (|x - p.mean| ≤ j * p.std_dev)),
        by simp [DataProcessor.filter_outliers, not_lt.mpr hj]⟩

/-- Witness for C6 at concrete inputs: counts `-1` and `3`, the sequence
`[2.5]`, the engine over `[2.5]`, and multipliers `-1` and `0`. -/
theorem invalid_argument_correct_witness :
    ((-1 : Int) < 0 ∧ (0 : Int) ≤ 3 ∧ ([2.5] : List ℝ) ≠ [] ∧
      (-1 : ℝ) < 0 ∧ (0 : ℝ) ≤ 0) ∧
    (process_numbers [] = .error .invalidArgument ∧
     (∃ r, process_numbers [2.5] = .ok r) ∧
     DataProcessor.new [] = .error .invalidArgument ∧
     (∃ q, DataProcessor.new [2.5] = .ok q) ∧
     fibonacciE (-1) = .error .invalidArgument ∧
     (∃ l, fibonacciE 3 = .ok l) ∧
     fibonacciE 0 = .ok [] ∧
     DataProcessor.filter_outliers ⟨[2.5]⟩ (-1) = .error .invalidArgument ∧
     (∃ l, DataProcessor.filter_outliers ⟨[2.5]⟩ 0 = .ok l)) :=
  ⟨⟨by norm_num, by norm_num, by simp, by norm_num, le_refl 0⟩,
    invalid_argument_correct (-1) 3 (by norm_num) (by norm_num) [2.5]
      (by simp) ⟨[2.5]⟩ (-1) 0 (by norm_num) (le_refl 0)⟩

/-- C8: `add(a, b)` returns `a + b` and sets memory to `a + b`;
`multiply(a, b)` returns `a * b` and sets memory to `a * b`; every
arithmetic call overwrites memory unconditionally (last write wins); the
return value of `add` is independent of the prior memory value; and memory
before any operation is 0. -/
theorem calculator_correct (c c' : Calculator) (a b x y : ℝ) :
    (c.add a b).1 = a + b ∧
    (c.add a b).2.memory = a + b ∧
    (c.multiply a b).1 = a * b ∧
    (c.multiply a b).2.memory = a * b ∧
    (c.add a b).1 = (c'.add a b).1 ∧
    (((c.add a b).2.multiply x y).2).get_memory = x * y ∧
    (((c.multiply a b).2.add x y).2).get_memory = x + y ∧
    Calculator.new.get_memory = 0 :=
  ⟨rfl, rfl, rfl, rfl, rfl, rfl, rfl, rfl⟩

/-- C9: `reverse_string` reverses the code-point sequence (so it permutes
the code points, never splitting one), maps the empty string to itself, and
is an involution: applying it twice gives back the original string. -/
theorem reverse_string_correct (s : String) :
    reverse_string (reverse_string s) = s ∧
    (reverse_string s).data = s.data.reverse ∧
    (reverse_string s).data.Perm s.data ∧
    reverse_string "" = "" := by
  obtain ⟨l⟩ := s
  refine ⟨?_, rfl, List.reverse_perm l, rfl⟩
  show String.mk l.reverse.reverse = String.mk l
  rw [List.reverse_reverse]

/-- C3: for a dataset of odd size, `median()` is the middle element of an
ascending-sorted copy of the dataset; for a dataset of even size it is the
average of the two middle elements of that sorted copy.  The sorted copy is
characterized abstractly: any ascending-sorted permutation of the dataset. -/
theorem median_correct (p : DataProcessor) (s : List ℝ)
    (hsort : s.Sorted (· ≤ ·)) (hperm : s.Perm p.data) (_hne : p.data ≠ []) :
    (p.data.length % 2 = 1 → p.median = s.getD (p.data.length / 2) 0) ∧
    (p.data.length % 2 = 0 →
      p.median = (s.getD (p.data.length / 2 - 1) 0 +
        s.getD (p.data.length / 2) 0) / 2) := by
  have hs : s = List.insertionSort (· ≤ ·) p.data :=
    List.eq_of_perm_of_sorted
      (hperm.trans (List.perm_insertionSort _ _).symm) hsort
      (List.sorted_insertionSort _ _)
  subst hs
  constructor
  · intro hodd
    simp only [DataProcessor.median]
    rw [if_pos hodd]
  · intro heven
    simp only [DataProcessor.median]
    rw [if_neg (by omega : ¬ p.data.length % 2 = 1)]

/-- Witness for C3 at the concrete engine over `[1, 2]` with the sorted
copy `[1, 2]`. -/
theorem median_correct_witness :
    (List.Sorted (· ≤ ·) ([1, 2] : List ℝ) ∧
     ([1, 2] : List ℝ).Perm (DataProcessor.mk [1, 2]).data ∧
     (DataProcessor.mk [1, 2]).data ≠ []) ∧
    (((DataProcessor.mk [1, 2]).data.length % 2 = 1 →
       (DataProcessor.mk [1, 2]).median =
         ([1, 2] : List ℝ).getD ((DataProcessor.mk [1, 2]).data.length / 2) 0) ∧
     ((DataProcessor.mk [1, 2]).data.length % 2 = 0 →
       (DataProcessor.mk [1, 2]).median =
         (([1, 2] : List ℝ).getD
            ((DataProcessor.mk [1, 2]).data.length / 2 - 1) 0 +
          ([1, 2] : List ℝ).getD
            ((DataProcessor.mk [1, 2]).data.length / 2) 0) / 2)) :=
  ⟨⟨by norm_num [List.sorted_cons], List.Perm.refl _, by simp⟩,
   median_correct ⟨[1, 2]⟩ [1, 2] (by norm_num [List.sorted_cons])
     (List.Perm.refl _) (by simp)⟩

/-- C4: `std_dev()` is the population standard deviation
`sqrt(sum((x - mean)^2) / count)`: it is non-negative, equals that square
root, and its square times the full element count recovers the sum of
squared deviations — the divisor is the count itself, with no Bessel
(sample-size) correction. -/
theorem std_dev_correct (p : DataProcessor) (h : p.data ≠ []) :
    0 ≤ p.std_dev ∧
    p.std_dev =
      Real.sqrt ((p.data.map (fun x => (x - p.mean) ^ 2)).sum / p.data.length) ∧
    p.std_dev ^ 2 * p.data.length =
      (p.data.map (fun x => (x - p.mean) ^ 2)).sum := by
  have hS : 0 ≤ (p.data.map (fun x => (x - p.mean) ^ 2)).sum := by
    apply List.sum_nonneg
    intro x hx
    obtain ⟨y, _, rfl⟩ := List.mem_map.mp hx
    positivity
  have hlen : (0 : ℝ) < p.data.length := by
    have := List.length_pos.mpr h
    exact_mod_cast this
  refine ⟨Real.sqrt_nonneg _, rfl, ?_⟩
  rw [DataProcessor.std_dev, Real.sq_sqrt (div_nonneg hS (le_of_lt hlen))]
  exact div_mul_cancel₀ _ (ne_of_gt hlen)

/-- Witness for C4 at the concrete engine over `[1, 3]`. -/
theorem std_dev_correct_witness :
    (DataProcessor.mk [1, 3]).data ≠ [] ∧
    (0 ≤ (DataProcessor.mk [1, 3]).std_dev ∧
     (DataProcessor.mk [1, 3]).std_dev =
       Real.sqrt (((DataProcessor.mk [1, 3]).data.map
         (fun x => (x - (DataProcessor.mk [1, 3]).mean) ^ 2)).sum /
         (DataProcessor.mk [1, 3]).data.length) ∧
     (DataProcessor.mk [1, 3]).std_dev ^ 2 *
         (DataProcessor.mk [1, 3]).data.length =
       ((DataProcessor.mk [1, 3]).data.map
         (fun x => (x - (DataProcessor.mk [1, 3]).mean) ^ 2)).sum) :=
  ⟨by simp, std_dev_correct ⟨[1, 3]⟩ (by simp)⟩

/-- C10: after construction, the four statistics-engine operations never
mutate the stored dataset: running any sequence of `mean`, `median`,
`std_dev` and `filter_outliers` calls leaves the engine state exactly as
constructed, and every call in the sequence returns the same result it
would return as a first call — so any number of calls in any order return
identical results. -/
theorem dataprocessor_read_only (p : DataProcessor) (ops : List StatOp) :
    (runOps p ops).2 = p ∧
    (runOps p ops).1 = ops.map (fun o => (runOp p o).1) := by
  have hstate : ∀ (q : DataProcessor) (o : StatOp), (runOp q o).2 = q := by
    intro q o
    cases o <;> rfl
  induction ops with
  | nil => exact ⟨rfl, rfl⟩
  | cons o rest ih =>
    obtain ⟨ih1, ih2⟩ := ih
    constructor
    · show (runOps (runOp p o).2 rest).2 = p
      rw [hstate p o, ih1]
    · show (runOp p o).1 :: (runOps (runOp p o).2 rest).1 =
        (runOp p o).1 :: rest.map (fun o => (runOp p o).1)
      rw [hstate p o, ih2]

/-- Concatenating the tokens produced by the tokenizer recovers exactly the
non-whitespace characters of the scanned text (in order), prefixed by the
pending run: no character is stripped or altered. -/
theorem wordsAux_flatten (cs : List Char) : ∀ cur : List Char,
    (wordsAux cs cur).flatten =
      cur.reverse ++ cs.filter (fun c => !c.isWhitespace) := by
  induction cs with
  | nil =>
    intro cur
    cases cur with
    | nil => simp [wordsAux]
    | cons c cur' => simp [wordsAux]
  | cons c rest ih =>
    intro cur
    by_cases h : c.isWhitespace
    · cases cur with
      | nil => simp [wordsAux, h, ih]
      | cons d cur' => simp [wordsAux, h, ih]
    · have := ih (c :: cur)
      simp only [wordsAux, if_neg h, this, List.reverse_cons, List.filter_cons]
      simp [h]

/-- Every token produced by the tokenizer is non-empty and contains no
whitespace character, provided the pending run contains none. -/
theorem wordsAux_wf (cs : List Char) : ∀ cur : List Char,
    (∀ c ∈ cur, c.isWhitespace = false) →
    ∀ w ∈ wordsAux cs cur, w ≠ [] ∧ ∀ c ∈ w, c.isWhitespace = false := by
  induction cs with
  | nil =>
    intro cur hcur w hw
    cases cur with
    | nil => simp [wordsAux] at hw
    | cons c cur' =>
      simp only [wordsAux, List.mem_singleton] at hw
      subst hw
      exact ⟨by simp, fun x hx => hcur x (List.mem_reverse.mp hx)⟩
  | cons c rest ih =>
    intro cur hcur w hw
    by_cases h : c.isWhitespace
    · cases cur with
      | nil =>
        exact ih [] (by simp) w (by simpa [wordsAux, h] using hw)
      | cons d cur' =>
        rw [show wordsAux (c :: rest) (d :: cur') =
            (d :: cur').reverse :: wordsAux rest [] from by
          simp [wordsAux, h]] at hw
        rcases List.mem_cons.mp hw with rfl | hw'
        · exact ⟨by simp, fun x hx => hcur x (List.mem_reverse.mp hx)⟩
        · exact ih [] (by simp) w hw'
    · refine ih (c :: cur) ?_ w (by simpa [wordsAux, h] using hw)
      intro x hx
      rcases List.mem_cons.mp hx with rfl | hx'
      · simpa using h
      · exact hcur x hx'

/-- Recording one occurrence of `w` adds exactly one to the stored count of
`w` and leaves every other stored count unchanged. -/
theorem lcount_bump (m : List (String × Nat)) (w x : String) :
    lcount (bump m w) x = lcount m x + (if w = x then 1 else 0) := by
  induction m with
  | nil =>
    by_cases hx : w = x <;> simp [bump, lcount, hx]
  | cons q rest ih =>
    obtain ⟨k, c⟩ := q
    by_cases hk : k = w
    · subst hk
      by_cases hx : k = x <;> simp [bump, lcount, hx]
    · by_cases hx : k = x
      · subst hx
        have hwx : ¬ w = k := fun e => hk e.symm
        simp [bump, hk, lcount, hwx]
      · simp [bump, hk, lcount, hx, ih]

/-- Folding the recorder over a token list adds each token's number of
occurrences to its stored count. -/
theorem lcount_foldl (ws : List String) : ∀ (m : List (String × Nat)) (x : String),
    lcount (ws.foldl bump m) x = lcount m x + ws.count x := by
  induction ws with
  | nil => intro m x; simp
  | cons w ws ih =>
    intro m x
    rw [List.foldl_cons, ih, lcount_bump]
    have hc : (w :: ws).count x = ws.count x + (if w = x then 1 else 0) := by
      by_cases hx : w = x
      · subst hx; simp [List.count_cons]
      · simp [List.count_cons, beq_iff_eq, hx]
    rw [hc]
    omega

/-- Recording one occurrence increases the total of the stored counts by
exactly one. -/
theorem sum_bump (m : List (String × Nat)) (w : String) :
    ((bump m w).map Prod.snd).sum = (m.map Prod.snd).sum + 1 := by
  induction m with
  | nil => simp [bump]
  | cons q rest ih =>
    obtain ⟨k, c⟩ := q
    by_cases hk : k = w <;> simp [bump, hk, ih] <;> omega

/-- Folding the recorder over a token list increases the total of the
stored counts by the number of tokens. -/
theorem sum_foldl (ws : List String) : ∀ m : List (String × Nat),
    ((ws.foldl bump m).map Prod.snd).sum = (m.map Prod.snd).sum + ws.length := by
  induction ws with
  | nil => intro m; simp
  | cons w ws ih =>
    intro m
    rw [List.foldl_cons, ih, sum_bump]
    simp
    omega

/-- A key of the map after recording `w` is a previous key or `w` itself. -/
theorem mem_keys_bump (m : List (String × Nat)) (w x : String) :
    x ∈ keys (bump m w) ↔ x ∈ keys m ∨ x = w := by
  induction m with
  | nil => simp [bump, keys]
  | cons q rest ih =>
    obtain ⟨k, c⟩ := q
    by_cases hk : k = w
    · subst hk
      simp [bump, keys]
      tauto
    · simp [bump, hk, keys] at ih ⊢
      tauto

/-- Recording an occurrence preserves uniqueness of the stored keys. -/
theorem nodup_keys_bump (m : List (String × Nat)) (w : String) :
    (keys m).Nodup → (keys (bump m w)).Nodup := by
  induction m with
  | nil => intro _; simp [bump, keys]
  | cons q rest ih =>
    obtain ⟨k, c⟩ := q
    intro h
    rw [keys, List.map_cons, List.nodup_cons] at h
    obtain ⟨hk1, hk2⟩ := h
    by_cases hk : k = w
    · subst hk
      rw [show bump ((k, c) :: rest) k = (k, c + 1) :: rest from by simp [bump]]
      rw [keys, List.map_cons, List.nodup_cons]
      exact ⟨hk1, hk2⟩
    · rw [show bump ((k, c) :: rest) w = (k, c) :: bump rest w from by
        simp [bump, hk]]
      rw [keys, List.map_cons, List.nodup_cons]
      refine ⟨?_, ih hk2⟩
      intro hmem
      rcases (mem_keys_bump rest w k).mp hmem with hin | rfl
      · exact hk1 hin
      · exact hk rfl

/-- Recording an occurrence keeps every stored count at least 1. -/
theorem pos_bump (m : List (String × Nat)) (w : String)
    (h : ∀ q ∈ m, 1 ≤ q.2) : ∀ q ∈ bump m w, 1 ≤ q.2 := by
  induction m with
  | nil =>
    intro q hq
    simp only [bump, List.mem_singleton] at hq
    subst hq
    simp
  | cons p rest ih =>
    obtain ⟨k, c⟩ := p
    intro q hq
    by_cases hk : k = w
    · subst hk
      rw [show bump ((k, c) :: rest) k = (k, c + 1) :: rest from by
        simp [bump]] at hq
      rcases List.mem_cons.mp hq with rfl | hq'
      · simp
      · exact h q (List.mem_cons_of_mem _ hq')
    · rw [show bump ((k, c) :: rest) w = (k, c) :: bump rest w from by
        simp [bump, hk]] at hq
      rcases List.mem_cons.mp hq with rfl | hq'
      · exact h (k, c) (List.mem_cons_self _ _)
      · exact ih (fun r hr => h r (List.mem_cons_of_mem _ hr)) q hq'

/-- The frequency fold keeps the stored keys unique and every stored count
at least 1. -/
theorem good_foldl (ws : List String) : ∀ m : List (String × Nat),
    (keys m).Nodup → (∀ q ∈ m, 1 ≤ q.2) →
    (keys (ws.foldl bump m)).Nodup ∧ ∀ q ∈ ws.foldl bump m, 1 ≤ q.2 := by
  induction ws with
  | nil => intro m h1 h2; exact ⟨h1, h2⟩
  | cons w ws ih =>
    intro m h1 h2
    exact ih (bump m w) (nodup_keys_bump m w h1) (pos_bump m w h2)

/-- In a map with unique keys, a stored entry's count is the looked-up
count of its key. -/
theorem lcount_of_mem (m : List (String × Nat)) (w : String) (c : Nat) :
    (keys m).Nodup → (w, c) ∈ m → lcount m w = c := by
  induction m with
  | nil => intro _ hmem; simp at hmem
  | cons q rest ih =>
    obtain ⟨k, c'⟩ := q
    intro hnd hmem
    rw [keys, List.map_cons, List.nodup_cons] at hnd
    obtain ⟨hk1, hk2⟩ := hnd
    rcases List.mem_cons.mp hmem with heq | hmem'
    · cases heq
      simp [lcount]
    · by_cases hkw : k = w
      · exact absurd (List.mem_map.mpr ⟨(w, c), hmem', by rw [hkw]⟩) hk1
      · rw [show lcount ((k, c') :: rest) w = lcount rest w from by
          simp [lcount, hkw]]
        exact ih hk2 hmem'

/-- A key with a positive looked-up count is stored with that count. -/
theorem mem_of_lcount_pos (m : List (String × Nat)) (w : String) :
    1 ≤ lcount m w → (w, lcount m w) ∈ m := by
  induction m with
  | nil => intro h; simp [lcount] at h
  | cons q rest ih =>
    obtain ⟨k, c⟩ := q
    intro h
    by_cases hk : k = w
    · subst hk
      rw [show lcount ((k, c) :: rest) k = c from by simp [lcount]] at h ⊢
      exact List.mem_cons_self _ _
    · rw [show lcount ((k, c) :: rest) w = lcount rest w from by
        simp [lcount, hk]] at h ⊢
      exact List.mem_cons_of_mem _ (ih h)

/-- C7: `word_frequency` splits the text on runs of whitespace with no
punctuation stripping and no case folding — every token is a non-empty
whitespace-free substring and concatenating the tokens recovers exactly the
non-whitespace characters of the text in order — and maps each distinct
token to its exact number of occurrences (every stored count at least 1);
the stored counts sum to the total number of whitespace-delimited tokens,
and the empty text yields the empty mapping. -/
theorem word_frequency_correct (t : String) :
    (∀ w ∈ tokens t, w ≠ "" ∧ ∀ c ∈ w.data, c.isWhitespace = false) ∧
    ((tokens t).map String.data).flatten =
      t.data.filter (fun c => !c.isWhitespace) ∧
    (∀ w c, (w, c) ∈ word_frequency t →
      c = (tokens t).count w ∧ 1 ≤ c ∧ w ∈ tokens t) ∧
    (∀ w ∈ tokens t, (w, (tokens t).count w) ∈ word_frequency t) ∧
    ((word_frequency t).map Prod.snd).sum = (tokens t).length ∧
    word_frequency "" = [] := by
  have hgood := good_foldl (tokens t) [] (by simp [keys]) (by simp)
  have hlc : ∀ x, lcount (word_frequency t) x = (tokens t).count x := by
    intro x
    rw [word_frequency, lcount_foldl]
    simp [lcount]
  refine ⟨?_, ?_, ?_, ?_, ?_, rfl⟩
  · intro w hw
    rw [tokens] at hw
    obtain ⟨l, hl, rfl⟩ := List.mem_map.mp hw
    obtain ⟨h1, h2⟩ := wordsAux_wf t.data [] (by simp) l hl
    refine ⟨fun e => h1 ?_, h2⟩
    have := congrArg String.data e
    simpa using this
  · rw [tokens, List.map_map]
    rw [show String.data ∘ String.mk = id from rfl, List.map_id,
      wordsAux_flatten t.data []]
    simp
  · intro w c hmem
    have hcnt := lcount_of_mem (word_frequency t) w c hgood.1 hmem
    refine ⟨by rw [← hlc w, hcnt], hgood.2 (w, c) hmem, ?_⟩
    apply List.count_pos_iff.mp
    rw [← hlc w, hcnt]
    exact hgood.2 (w, c) hmem
  · intro w hw
    have hcp : 1 ≤ lcount (word_frequency t) w := by
      rw [hlc]
      exact List.count_pos_iff.mpr hw
    have hmem := mem_of_lcount_pos (word_frequency t) w hcp
    rwa [hlc] at hmem
  · rw [word_frequency, sum_foldl]
    simp

/-- If the squared deviation is at most `k ^ 2 * v`, the absolute deviation
is at most `k` times `√v` (for non-negative `k`). -/
theorem abs_le_mul_sqrt {x m k v : ℝ} (hk : 0 ≤ k)
    (h : (x - m) ^ 2 ≤ k ^ 2 * v) : |x - m| ≤ k * Real.sqrt v := by
  have h2 : Real.sqrt (k ^ 2 * v) = k * Real.sqrt v := by
    rw [Real.sqrt_mul (sq_nonneg k), Real.sqrt_sq_eq_abs, abs_of_nonneg hk]
  calc |x - m| = Real.sqrt ((x - m) ^ 2) := (Real.sqrt_sq_eq_abs _).symm
    _ ≤ Real.sqrt (k ^ 2 * v) := Real.sqrt_le_sqrt h
    _ = k * Real.sqrt v := h2

/-- If `k ^ 2 * v` is strictly below the squared deviation, then `k * √v`
is strictly below the absolute deviation (for non-negative `k` and `v`). -/
theorem mul_sqrt_lt_abs {x m k v : ℝ} (hk : 0 ≤ k) (hv : 0 ≤ v)
    (h : k ^ 2 * v < (x - m) ^ 2) : k * Real.sqrt v < |x - m| := by
  have h2 : Real.sqrt (k ^ 2 * v) = k * Real.sqrt v := by
    rw [Real.sqrt_mul (sq_nonneg k), Real.sqrt_sq_eq_abs, abs_of_nonneg hk]
  calc k * Real.sqrt v = Real.sqrt (k ^ 2 * v) := h2.symm
    _ < Real.sqrt ((x - m) ^ 2) :=
        Real.sqrt_lt_sqrt (mul_nonneg (sq_nonneg k) hv) h
    _ = |x - m| := Real.sqrt_sq_eq_abs _

/-- C5: for every non-negative `k`, `filter_outliers k` returns exactly the
dataset values `x` with `|x - mean| ≤ k * std_dev`, in the dataset's
original relative order (a sublist of the dataset); in particular on the
dataset `[10, 12, 15, 17, 18, 20, 22, 100]` with `k = 2` it excludes `100`
and keeps all other elements in input order. -/
theorem filter_outliers_correct (p : DataProcessor) (k : ℝ) (hk : 0 ≤ k) :
    (∃ r, p.filter_outliers k = .ok r ∧
      r = p.data.filter (fun x => decide (|x - p.mean| ≤ k * p.std_dev)) ∧
      r.Sublist p.data ∧
      (∀ x, x ∈ r ↔ x ∈ p.data ∧ |x - p.mean| ≤ k * p.std_dev)) ∧
    DataProcessor.filter_outliers ⟨[10, 12, 15, 17, 18, 20, 22, 100]⟩ 2 =
      .ok [10, 12, 15, 17, 18, 20, 22] := by
  constructor
  · refine ⟨p.data.filter (fun x => decide (|x - p.mean| ≤ k * p.std_dev)),
      ?_, rfl, List.filter_sublist _, ?_⟩
    · rw [DataProcessor.filter_outliers, if_neg (not_lt.mpr hk)]
    · intro x
      simp [List.mem_filter]
  · have hmean :
        (DataProcessor.mk [10, 12, 15, 17, 18, 20, 22, 100]).mean = 26.75 := by
      norm_num [DataProcessor.mean]
    have hsd : (DataProcessor.mk [10, 12, 15, 17, 18, 20, 22, 100]).std_dev
        = Real.sqrt 780.1875 := by
      simp only [DataProcessor.std_dev, hmean]
      norm_num
    have hin : ∀ x : ℝ, (x - 26.75) ^ 2 ≤ 3120.75 →
        decide (|x - (DataProcessor.mk [10, 12, 15, 17, 18, 20, 22, 100]).mean| ≤
          2 * (DataProcessor.mk [10, 12, 15, 17, 18, 20, 22, 100]).std_dev)
          = true := by
      intro x hx
      apply decide_eq_true
      rw [hmean, hsd]
      exact abs_le_mul_sqrt (by norm_num)
        (by rw [show (2 : ℝ) ^ 2 * 780.1875 = 3120.75 by norm_num]; exact hx)
    have hout :
        decide (|(100 : ℝ) -
            (DataProcessor.mk [10, 12, 15, 17, 18, 20, 22, 100]).mean| ≤
          2 * (DataProcessor.mk [10, 12, 15, 17, 18, 20, 22, 100]).std_dev)
          = false := by
      apply decide_eq_false
      rw [hmean, hsd]
      exact not_le.mpr (mul_sqrt_lt_abs (by norm_num) (by norm_num) (by norm_num))
    rw [DataProcessor.filter_outliers, if_neg (by norm_num : ¬ (2 : ℝ) < 0)]
    congr 1
    simp [List.filter_cons, hin 10 (by norm_num), hin 12 (by norm_num),
      hin 15 (by norm_num), hin 17 (by norm_num), hin 18 (by norm_num),
      hin 20 (by norm_num), hin 22 (by norm_num), hout]

/-- Witness for C5 at the concrete engine over `[5]` with multiplier 0. -/
theorem filter_outliers_correct_witness :
    (0 : ℝ) ≤ 0 ∧
    ((∃ r, DataProcessor.filter_outliers ⟨[5]⟩ 0 = .ok r ∧
       r = (DataProcessor.mk [5]).data.filter
         (fun x => decide (|x - (DataProcessor.mk [5]).mean| ≤
           0 * (DataProcessor.mk [5]).std_dev)) ∧
       r.Sublist (DataProcessor.mk [5]).data ∧
       (∀ x, x ∈ r ↔ x ∈ (DataProcessor.mk [5]).data ∧
         |x - (DataProcessor.mk [5]).mean| ≤
           0 * (DataProcessor.mk [5]).std_dev)) ∧
     DataProcessor.filter_outliers ⟨[10, 12, 15, 17, 18, 20, 22, 100]⟩ 2 =
       .ok [10, 12, 15, 17, 18, 20, 22]) :=
  ⟨le_refl 0, filter_outliers_correct ⟨[5]⟩ 0 (le_refl 0)⟩

end RustPyLib
